import Mathlib

/-!
Verification development for the audioui generative music engine.

Each component of the repository that the checked properties touch is given a
shallow embedding below, translated from the Python sources:

* `src/core/audio/maestro/automix.py`            — `AutoMixer.autoset`
* `src/core/audio/maestro/orchestrator.py`       — `Orchestrator.voice` / `Orchestrator._fit`
* `src/core/audio/maestro/progression.py`        — `ProgressionSynth.next` / `_next_uncached`
* `src/core/audio/maestro/maestro_compositor.py` — `Compositor.next_event` / `next_block_events`
* `src/core/audio/maestro/harmonic.py`           — per-window chord choice of `_describe_uncached`
* `src/core/audio/maestro/audio_maestro.py`      — `Maestro` mute-gated entry points
* `src/core/audio/audio_engine_client.py`        — `AudioEngineClient` command/`_sched` state
* `src/core/audio/audio_engine_server.py`        — `AudioEngine._process_block_events`

Machine floats are modelled by `ℚ`, Python ints by `ℤ`/`ℕ`, fallible code by
`Option`/`Except`.  Python while-loops are modelled by fuel-indexed structural
recursion with the exact fuel needed, so that every definition evaluates.
-/

set_option maxRecDepth 4000

namespace AudioUi

/-! ### AutoMixer — src/core/audio/maestro/automix.py

`autoset` walks the per-part configuration mapping; for every part it renders a
sine stub, measures loudness (the measurement is discarded: line 44 writes the
constant `3`), and sets the two heuristic effect flags. -/

/-- One entry of the per-part configuration dictionary handled by
`AutoMixer.autoset` (keys `notes`, `durations`, `intensity`, and the keys the
mixer writes: `gain_db`, `enable_reverb`, `enable_chorus`). -/
structure PartCfg where
  notes : List ℚ
  durations : List ℚ
  intensity : List ℚ
  gain_db : Option ℚ := none
  enable_reverb : Option Bool := none
  enable_chorus : Option Bool := none
deriving DecidableEq

/-- `np.mean` of a list of rationals (sum divided by length). -/
def listMean (xs : List ℚ) : ℚ := xs.sum / (xs.length : ℚ)

/-- Body of the `autoset` loop for one part (automix.py lines 28-48): the
loudness is computed but line 44 assigns the constant `3`; the reverb flag is
`np.mean(cfg['notes']) > 60` and the chorus flag is `len(cfg['notes']) > 6`. -/
def autosetPart (cfg : PartCfg) : PartCfg :=
  { cfg with
    gain_db := some 3
    enable_reverb := some (decide (listMean cfg.notes > 60))
    enable_chorus := some (decide (cfg.notes.length > 6)) }

/-- `AutoMixer.autoset`: updates every part in place and returns the mapping. -/
def autoset (parts : List (String × PartCfg)) : List (String × PartCfg) :=
  parts.map (fun p => (p.1, autosetPart p.2))

/-- What `autoset` guarantees for one part: same name and note data, gain
pinned to 3, reverb flag iff the mean note value exceeds 60, chorus flag iff
there are more than 6 notes. -/
def AutosetRel (p q : String × PartCfg) : Prop :=
  q.1 = p.1 ∧ q.2.notes = p.2.notes ∧ q.2.durations = p.2.durations ∧
  q.2.intensity = p.2.intensity ∧ q.2.gain_db = some 3 ∧
  (q.2.enable_reverb = some true ↔ listMean p.2.notes > 60) ∧
  (q.2.enable_chorus = some true ↔ p.2.notes.length > 6)

/-! ### Orchestrator — src/core/audio/maestro/orchestrator.py -/

/-- The `REGISTER` table of orchestrator.py (MIDI register per role). -/
def REGISTER : List (String × (ℤ × ℤ)) :=
  [("bass", (28, 48)), ("piano", (50, 96)), ("pad", (40, 84)), ("lead", (60, 108))]

/-- First while-loop of `Orchestrator._fit`: `while midi < low: midi += 12`.
The fuel `(low - midi).toNat` bounds the number of iterations (each iteration
raises `midi` by 12 ≥ 1). -/
def fitUpAux (low : ℤ) : ℕ → ℤ → ℤ
  | 0, midi => midi
  | fuel + 1, midi => if midi < low then fitUpAux low fuel (midi + 12) else midi

def fitUp (low midi : ℤ) : ℤ := fitUpAux low (low - midi).toNat midi

/-- Second while-loop of `Orchestrator._fit`: `while midi > high: midi -= 12`. -/
def fitDownAux (high : ℤ) : ℕ → ℤ → ℤ
  | 0, midi => midi
  | fuel + 1, midi => if midi > high then fitDownAux high fuel (midi - 12) else midi

def fitDown (high midi : ℤ) : ℤ := fitDownAux high (midi - high).toNat midi

/-- `Orchestrator._fit(midi, role)` for a register `(low, high)`: raise by
octaves until at least `low`, then lower by octaves until at most `high`. -/
def fit (low high midi : ℤ) : ℤ := fitDown high (fitUp low midi)

/-- Register lookup used by `_fit` (the `occ` counter does not affect notes). -/
def registerOf (role : String) : ℤ × ℤ := (REGISTER.lookup role).getD (0, 0)

def fitRole (midi : ℤ) (role : String) : ℤ :=
  fit (registerOf role).1 (registerOf role).2 midi

/-- The data `Orchestrator.voice` extracts from `music21.chord.Chord(symb)`:
the bass pitch MIDI number (`c.bass().midi`) and the chord-tone MIDI numbers
(`n.pitch.midi` for `n` in `c.notes`, never empty for a parsed symbol). -/
structure ChordNotes where
  bassMidi : ℤ
  toneMidis : List ℤ
deriving DecidableEq

/-- The two parts built by `Orchestrator.voice` (parallel lists per part). -/
structure VoiceParts where
  bassNotes : List ℤ
  bassDurations : List ℚ
  bassIntensity : List ℚ
  pianoNotes : List ℤ
  pianoDurations : List ℚ
  pianoIntensity : List ℚ
deriving DecidableEq

/-- `Orchestrator.voice(chords, rhythm)`: per `(symb, dur)` pair append the
fitted bass note with intensity 0.9, and the fitted chord tones to the piano
part, each with duration `dur / len(p_notes)` and intensity 0.7. -/
def voice (chords : List (ChordNotes × ℚ)) : VoiceParts :=
  { bassNotes := chords.map (fun c => fitRole c.1.bassMidi "bass")
    bassDurations := chords.map (fun c => c.2)
    bassIntensity := chords.map (fun _ => 9/10)
    pianoNotes := chords.flatMap (fun c => c.1.toneMidis.map (fun n => fitRole n "piano"))
    pianoDurations := chords.flatMap (fun c =>
      List.replicate c.1.toneMidis.length (c.2 / (c.1.toneMidis.length : ℚ)))
    pianoIntensity := chords.flatMap (fun c =>
      List.replicate c.1.toneMidis.length (7/10)) }

/-! ### ProgressionSynth — src/core/audio/maestro/progression.py -/

/-- The `GENRE_TEMPLATES` table of progression.py. -/
def GENRE_TEMPLATES : List (String × List String) :=
  [("pop", ["I", "V", "vi", "IV"]),
   ("rock", ["I", "IV", "V"]),
   ("blues", ["I", "IV", "I", "V"]),
   ("jazz", ["ii", "V", "I"]),
   ("classical", ["I", "vi", "ii", "V"]),
   ("funk", ["I", "bVII", "IV", "I"])]

/-- Python `round()` on a rational: round half to even (banker's rounding). -/
def pyRound (q : ℚ) : ℤ :=
  let f := ⌊q⌋
  let frac := q - f
  if frac < 1/2 then f
  else if 1/2 < frac then f + 1
  else if f % 2 = 0 then f else f + 1

/-- Python `"s".split("/")` on a character list (empty fragments kept). -/
def splitSlashGo : List Char → List Char → List (List Char)
  | acc, [] => [acc.reverse]
  | acc, c :: cs =>
    if c = '/' then acc.reverse :: splitSlashGo [] cs else splitSlashGo (c :: acc) cs

/-- Python `int(s)` restricted to non-empty digit strings (the only shape a
`N/D` time signature feeds it). -/
def pyIntDigits (cs : List Char) : Option ℕ :=
  if cs = [] ∨ ¬ cs.all Char.isDigit then none
  else some (cs.foldl (fun acc c => acc * 10 + (c.toNat - 48)) 0)

/-- Lines 89-92 of progression.py: `bar_beats = 4.0`, overridden by
`num * (4/den)` when a time signature string parses as `N/D`.  A malformed
string or a zero denominator raises in Python (caught by `next`), modelled by
`none`. -/
def barBeatsOf (ts : Option String) : Option ℚ :=
  match ts with
  | none => some 4
  | some s =>
    match (splitSlashGo [] s.data).map pyIntDigits with
    | [some num, some den] =>
      if den = 0 then none else some ((num : ℚ) * (4 / (den : ℚ)))
    | _ => none

/-- `n_bars = max(1, int(round(beats / bar_beats)))` (line 93). -/
def nBarsOf (beats bar : ℚ) : ℤ := max 1 (pyRound (beats / bar))

/-- Python list repetition `tpl * k` (concatenate `k` copies). -/
def listRepeat (tpl : List String) (k : ℕ) : List String :=
  (List.replicate k tpl).flatten

/-- Modelled from the spec: the resolution of a Roman numeral in a key
performed by the external `music21` library (`RomanNumeral(rn, key)`,
`root().name`, `quality`), which is outside this repository.  Spec §4.5
step 6 resolves each numeral in the key to `root[+m]` with the `m` suffix iff
the quality is minor, and scenario S3 fixes the pop template in C major to
`["C","G","Am","F"]`.  Only the key of C major, the one the settled claim
reaches, is modelled; the result pairs the root name with the quality
string. -/
def resolveRoman : String → String → Option (String × String)
  | "C major", "I" => some ("C", "major")
  | "C major", "ii" => some ("D", "minor")
  | "C major", "iii" => some ("E", "minor")
  | "C major", "IV" => some ("F", "major")
  | "C major", "V" => some ("G", "major")
  | "C major", "vi" => some ("A", "minor")
  | _, _ => none

/-- Roman numerals chosen by the genre branch (lines 96-98): the template
cycled `(n_bars // len(tpl)) + 1` times and truncated to `n_bars`. -/
def genreNumerals (tpl : List String) (n_bars : ℕ) : List String :=
  (listRepeat tpl (n_bars / tpl.length + 1)).take n_bars

/-- `_next_uncached` (progression.py lines 80-114) for a synth configured with
a genre template: `bar_beats` from the time signature,
`n_bars = max(1, int(round(beats / bar_beats)))`, the cycled template, each
numeral resolved to `root + ('' if quality == 'major' else 'm')`.  `none`
models a raised exception (caught by `next`). -/
def nextUncachedGenre (tpl : List String) (key_str : String) (beats : ℚ)
    (ts : Option String) : Option (List String) :=
  match barBeatsOf ts with
  | none => none
  | some bar =>
    ((genreNumerals tpl (nBarsOf beats bar).toNat).mapM (resolveRoman key_str)).map
      (fun resolved => resolved.map
        (fun rq => rq.1 ++ (if rq.2 = "major" then "" else "m")))

/-- Characters kept verbatim by the regex `[^A-Za-z #]+` of `next`. -/
def goodKeyChar (c : Char) : Bool := c.isAlpha || c = ' ' || c = '#'

/-- `re.sub(r'[^A-Za-z #]+', ' ', s)`: every maximal run of characters outside
`[A-Za-z #]` becomes a single space.  The boolean tracks whether the previous
character was inside such a run. -/
def subBadRuns : Bool → List Char → List Char
  | _, [] => []
  | inRun, c :: cs =>
    if goodKeyChar c then c :: subBadRuns false cs
    else if inRun then subBadRuns true cs
    else ' ' :: subBadRuns true cs

/-- Python `str.capitalize()`: first character upper-cased, rest lower-cased. -/
def pyCapitalize (s : String) : String :=
  match s.data with
  | [] => ""
  | c :: cs => String.mk (c.toUpper :: cs.map Char.toLower)

/-- Python `str.strip()` on a character list. -/
def pyStrip (cs : List Char) : List Char :=
  ((cs.dropWhile Char.isWhitespace).reverse.dropWhile Char.isWhitespace).reverse

/-- Python `str.split()` with no argument: split on whitespace runs, dropping
empty fragments. -/
def pySplitWsGo : List Char → List Char → List String
  | acc, [] => if acc = [] then [] else [String.mk acc.reverse]
  | acc, c :: cs =>
    if c.isWhitespace then
      if acc = [] then pySplitWsGo [] cs else String.mk acc.reverse :: pySplitWsGo [] cs
    else pySplitWsGo (c :: acc) cs

/-- Key normalisation in `ProgressionSynth.next` (progression.py lines 56-68):
translate `♭`/`♯`, collapse junk runs to spaces, strip, split; with at least
two fragments take `capitalize(tonic)` and `lower(mode)` (forcing `major` when
the mode is neither `major` nor `minor`), otherwise fall back to `C major`. -/
def normalizeKey (raw : String) : String :=
  let s1 := raw.data.map
    (fun c => if c = '♭' then 'b' else if c = '♯' then '#' else c)
  let s2 := pyStrip (subBadRuns false s1)
  match pySplitWsGo [] s2 with
  | tonic :: mode :: _ =>
    let modeLow := String.mk (mode.data.map Char.toLower)
    let modeOk := if modeLow = "major" ∨ modeLow = "minor" then modeLow else "major"
    pyCapitalize tonic ++ " " ++ modeOk
  | _ => "C major"

/-- `ProgressionSynth.next(analysis, beats)` for genre `pop` (the genre branch
of `_next_uncached`; caching does not change values).  On failure retry with
`C major`; if that fails too, return `['C']` (lines 70-78). -/
def progressionNextPop (analysisKey : String) (ts : Option String) (beats : ℚ) :
    List String :=
  let key_str := normalizeKey analysisKey
  let tpl := ["I", "V", "vi", "IV"]
  match nextUncachedGenre tpl key_str beats ts with
  | some cs => cs
  | none =>
    match nextUncachedGenre tpl "C major" beats ts with
    | some cs => cs
    | none => ["C"]

/-! ### Compositor — src/core/audio/maestro/maestro_compositor.py -/

/-- A note event `(frequency, duration in beats, intensity)`. -/
structure NoteEv where
  freq : ℚ
  dur : ℚ
  intens : ℚ
deriving DecidableEq

/-- The playback state of `Compositor`: `current_hands`, the per-hand cursor
list `idxs`, and the maestro mute flag consulted by every method. -/
structure CompositorState where
  current_hands : List (List NoteEv)
  idxs : List ℕ
  mute : Bool
deriving DecidableEq

/-- One tick of the list built by `next_block_events`. -/
structure BlockTick where
  time : ℚ
  notes : List ℚ
  durations : List ℚ
  intensity : List ℚ
deriving DecidableEq

/-- `Compositor.start(name)` (lines 98-105): a no-op under mute, otherwise
install the named melody's hands and zero one cursor per hand. -/
def compStart (st : CompositorState) (melodies : List (String × List (List NoteEv)))
    (name : String) : CompositorState :=
  if st.mute then st
  else
    let hands := (melodies.lookup name).getD []
    { st with current_hands := hands, idxs := List.replicate hands.length 0 }

/-- `Compositor.next_event()` (lines 107-121): `None` under mute; silence
`([0.0],[1.0],[0.0])` when there are no hands; otherwise emit the event under
each hand's cursor (intensity clamped below by `max(-1, i)`) and advance each
cursor by one modulo its hand's length.  Cursor reads are total via `getD`,
faithful on states whose cursors are in range. -/
def next_event (st : CompositorState) :
    Option ((List ℚ × List ℚ × List ℚ) × CompositorState) :=
  if st.mute then none
  else if st.current_hands = [] then some (([0], [1], [0]), st)
  else
    let hz := st.current_hands.zip st.idxs
    let notes := hz.map (fun p => (p.1.getD p.2 ⟨0, 0, 0⟩).freq)
    let durs := hz.map (fun p => (p.1.getD p.2 ⟨0, 0, 0⟩).dur)
    let ints := hz.map (fun p => max (-1) (p.1.getD p.2 ⟨0, 0, 0⟩).intens)
    let idxsNew := hz.map (fun p => (p.2 + 1) % p.1.length)
    some ((notes, durs, ints), { st with idxs := idxsNew })

/-- Iterate `next_event`, threading the state (`none` once any call returns
`None`). -/
def iterateNextEvent : ℕ → CompositorState → Option CompositorState
  | 0, st => some st
  | k + 1, st =>
    match next_event st with
    | none => none
    | some (_, st1) => iterateNextEvent k st1

/-- The `while time_acc < beats` loop of `Compositor.next_block_events`
(lines 144-167), indexed by fuel: record a tick at `time_acc`, then advance
`time_acc` by `sum(durs) / len(durs)`.  Exhausted fuel (`none`) means the loop
has not terminated within `fuel` iterations. -/
def nextBlockEventsFuel (beats : ℚ) : ℕ → CompositorState → ℚ →
    Option (List BlockTick × CompositorState)
  | 0, st, time_acc => if time_acc < beats then none else some ([], st)
  | fuel + 1, st, time_acc =>
    if time_acc < beats then
      match next_event st with
      | none => none
      | some ((notes, durs, ints), st1) =>
        (nextBlockEventsFuel beats fuel st1 (time_acc + durs.sum / (durs.length : ℚ))).map
          (fun r => (⟨time_acc, notes, durs, ints⟩ :: r.1, r.2))
    else some ([], st)

/-- `next_block_events(beats)` terminates on a state iff some finite fuel
suffices for its while-loop. -/
def NextBlockTerminates (st : CompositorState) (beats : ℚ) : Prop :=
  ∃ fuel, (nextBlockEventsFuel beats fuel st 0).isSome

/-- Well-formedness of the playback state: one cursor per hand, every cursor
inside its hand (what `start` establishes and `next_event` preserves). -/
def CursorsOk (st : CompositorState) : Prop :=
  st.idxs.length = st.current_hands.length ∧
  ∀ p ∈ st.current_hands.zip st.idxs, p.2 < p.1.length

/-- All note durations appearing in the current hands. -/
def allDurs (st : CompositorState) : List ℚ :=
  (st.current_hands.map (fun h => h.map NoteEv.dur)).flatten

/-- Every duration in the current hands is positive. -/
def DursPos (st : CompositorState) : Prop :=
  ∀ h ∈ st.current_hands, ∀ ev ∈ h, 0 < ev.dur

/-- A positive lower bound for the per-tick advance of `next_block_events`
when every duration is positive: the minimum of all durations, capped at the
silence advance 1. -/
def advLB (st : CompositorState) : ℚ := (allDurs st).foldr min 1

/-- A two-hand example melody repository (used to exercise the theorems on a
concrete input). -/
def melodiesEx : List (String × List (List NoteEv)) :=
  [("m", [[⟨440, 1, 1⟩], [⟨330, 1, 1⟩, ⟨220, 1, 1⟩]])]

/-! ### HarmonicAnalyser — src/core/audio/maestro/harmonic.py

Per-beat chord assignment of `_describe_uncached` (lines 66-81).  The melody
has already been turned into `(time, pitch_class)` events; a beat window `b`
collects the pitch classes with `b <= time < b+1`. -/

/-- `_NOTE_NAMES` of harmonic.py: the twelve pitch-class names in sharp
spelling, C through B. -/
def NOTE_NAMES : List String :=
  ["C", "C#", "D", "D#", "E", "F"] ++ ["F#", "G", "G#", "A", "A#", "B"]

/-- `_CHORD_TEMPLATES`: a dict literal inserting the 12 major triads in root
order, then the 12 minor triads in root order; iteration order of
`.items()` is this insertion order. -/
def CHORD_TEMPLATES : List (String × List ℕ) :=
  ((List.range 12).map
    (fun i => (NOTE_NAMES.getD i "", [i, (i + 4) % 12, (i + 7) % 12]))) ++
  ((List.range 12).map
    (fun i => (NOTE_NAMES.getD i "" ++ "m", [i, (i + 3) % 12, (i + 7) % 12])))

/-- The window of a beat `b`: pitch classes of events with `b <= time < b+1`. -/
def windowOf (events : List (ℚ × ℕ)) (b : ℕ) : List ℕ :=
  (events.filter (fun e => decide ((b : ℚ) ≤ e.1) && decide (e.1 < (b : ℚ) + 1))).map
    (fun e => e.2)

/-- `sum(hist[pc] for pc in template)` where `hist` counts the window's pitch
classes. -/
def templateScore (window : List ℕ) (template : List ℕ) : ℕ :=
  (template.map (fun pc => window.count pc)).sum

/-- The score of one `(symbol, template)` item, as the `ℤ`-valued running
best-score variable sees it. -/
def tmplScoreZ (window : List ℕ) (p : String × List ℕ) : ℤ :=
  (templateScore window p.2 : ℤ)

/-- One step of the best-template scan: replace the running best exactly when
the score strictly improves (`if score > best_score`). -/
def bestStep (window : List ℕ) (best : ℤ × String) (p : String × List ℕ) :
    ℤ × String :=
  if best.1 < tmplScoreZ window p then (tmplScoreZ window p, p.1) else best

/-- The fold of harmonic.py lines 75-79: `best_score, symbol = -1, tonic`,
then scan `_CHORD_TEMPLATES.items()` keeping strict improvements. -/
def bestChordFold (window : List ℕ) (tonicName : String) : ℤ × String :=
  CHORD_TEMPLATES.foldl (bestStep window) (-1, tonicName)

/-- Chord assigned to one beat window (lines 67-80): the tonic triad (with an
`m` suffix unless the mode is major) for an empty window, otherwise the
best-template scan. -/
def chordForWindow (window : List ℕ) (tonicName : String) (mode : String) : String :=
  if window = [] then tonicName ++ (if mode = "major" then "" else "m")
  else (bestChordFold window tonicName).2

/-- Specification-side choice, stated the way the amended claim reads: among
the 24 templates take the maximal score and return the first template in
iteration order (the 12 major triads in root order, then the 12 minor triads
in root order) attaining it. -/
def firstMaxSymbol (window : List ℕ) (tonicName : String) : String :=
  let m := CHORD_TEMPLATES.foldr (fun p acc => max (tmplScoreZ window p) acc) (-1)
  ((CHORD_TEMPLATES.find?
      (fun p => decide (tmplScoreZ window p = m))).map Prod.fst).getD tonicName

/-! ### Maestro — src/core/audio/maestro/audio_maestro.py

Mute-gated entry points.  Observable side effects towards the client are
recorded as actions. -/

/-- A queued SFX event (`{"time_offset": delay, "preset": name, ...}`). -/
structure MaestroSfx where
  time_offset : ℚ
  preset : String
deriving DecidableEq

/-- The Maestro fields the entry points touch: zones with a running task,
registered zones, the SFX queue and the mute flag. -/
structure MaestroState where
  tasks : List String
  zones : List String
  sfx_events : List MaestroSfx
  mute : Bool
deriving DecidableEq

/-- Client-visible effects of a Maestro entry point. -/
inductive MaestroAct
  | cancelTask (zone : String)
  | stopAllCall
deriving DecidableEq

/-- `Maestro.enter_zone` (lines 51-58; `set_zone` is an alias).  Mute branch:
cancel the in-flight task for the zone if any, call `client.stop_all()`,
return.  (The unmuted branch also cancels and records the zone; starting the
block-loop task is represented by adding the zone to `tasks`.) -/
def enter_zone (st : MaestroState) (zone : String) : MaestroState × List MaestroAct :=
  if st.mute then
    let hit := zone ∈ st.tasks
    let st1 := if hit then { st with tasks := st.tasks.erase zone } else st
    (st1, (if hit then [MaestroAct.cancelTask zone] else []) ++ [MaestroAct.stopAllCall])
  else
    let hit := zone ∈ st.tasks
    let st1 := if hit then { st with tasks := st.tasks.erase zone } else st
    ({ st1 with zones := st1.zones.insert zone, tasks := st1.tasks ++ [zone] },
      if hit then [MaestroAct.cancelTask zone] else [])

/-- `Maestro.queue_sfx` (lines 40-49).  Its mute branch executes
`if old := self.tasks.pop(zone, None): old.cancel()` — but `zone` is bound
neither as a parameter of `queue_sfx` nor in any enclosing scope (the
parameters are `self`, `name`, `delay`, `params`), so the Python interpreter
raises `NameError` there, before `client.stop_all()` is reached.  The raised
exception is modelled by `Except.error`. -/
def queue_sfx (st : MaestroState) (name : String) (delay : ℚ) :
    Except String (MaestroState × List MaestroAct) :=
  if st.mute then
    Except.error "NameError: name zone is not defined"
  else
    Except.ok ({ st with sfx_events := st.sfx_events ++ [⟨delay, name⟩] }, [])

/-- `Maestro.leave_zone` (lines 62-64): cancel the zone's task if any and drop
the zone — with no mute check and no `stop_all` call on any path. -/
def leave_zone (st : MaestroState) (zone : String) : MaestroState × List MaestroAct :=
  let hit := zone ∈ st.tasks
  let st1 := if hit then { st with tasks := st.tasks.erase zone } else st
  ({ st1 with zones := st1.zones.erase zone },
    if hit then [MaestroAct.cancelTask zone] else [])

/-! ### AudioEngineClient — src/core/audio/audio_engine_client.py

The client owns the scheduled-preset map `_sched` and the command queue; its
public methods enqueue commands and consult `maestro.mute`. -/

/-- Commands placed on `cmd_queue` by client methods. -/
inductive Cmd
  | playPreset (preset : String) (params : List (String × ℚ))
  | playBlock (nevents : ℕ)
  | getActivePresets
  | getCurrentMelody
  | stop
deriving DecidableEq

/-- Client state: the keys of `_sched`, the commands enqueued so far (in
order), and `maestro.mute`. -/
structure ClientState where
  sched : List String
  cmds : List Cmd
  mute : Bool
deriving DecidableEq

/-- Observable effects of one client method call. -/
inductive ClientAct
  | enqueue (c : Cmd)
  | cancelFuture (preset : String)
  | stopAllCall
deriving DecidableEq

/-- `stop_preset(preset, fade)` (lines 97-112): enqueue a fade-out
`play_preset` command, then pop the preset's future from `_sched` and cancel
it when present. -/
def stop_preset (st : ClientState) (preset : String) (fade : ℚ) :
    ClientState × List ClientAct :=
  let c := Cmd.playPreset preset [("intensity", 0), ("fade", fade)]
  let st1 := { st with cmds := st.cmds ++ [c] }
  if preset ∈ st1.sched then
    ({ st1 with sched := st1.sched.erase preset },
      [ClientAct.enqueue c, ClientAct.cancelFuture preset])
  else (st1, [ClientAct.enqueue c])

/-- `stop_all(fade)` (lines 114-119): `stop_preset` on a snapshot of the keys
of `_sched`. -/
def stop_all (st : ClientState) (fade : ℚ) : ClientState × List ClientAct :=
  st.sched.foldl
    (fun acc p =>
      let r := stop_preset acc.1 p fade
      (r.1, acc.2 ++ r.2))
    (st, [])

/-- `play_preset` (lines 70-81): when `maestro.mute` is true call `stop_all()`
and return; otherwise enqueue the command. -/
def play_preset (st : ClientState) (preset : String) (params : List (String × ℚ)) :
    ClientState × List ClientAct :=
  if st.mute then
    let r := stop_all st 1
    (r.1, ClientAct.stopAllCall :: r.2)
  else
    let c := Cmd.playPreset preset params
    ({ st with cmds := st.cmds ++ [c] }, [ClientAct.enqueue c])

/-- `play_block(events)` (lines 83-95): same mute gate, otherwise enqueue the
block command. -/
def play_block (st : ClientState) (nevents : ℕ) : ClientState × List ClientAct :=
  if st.mute then
    let r := stop_all st 1
    (r.1, ClientAct.stopAllCall :: r.2)
  else
    let c := Cmd.playBlock nevents
    ({ st with cmds := st.cmds ++ [c] }, [ClientAct.enqueue c])

/-- The client operations that can touch `_sched`, the queue or the mute flag
after `_init_async` (which creates `_sched = {}` and sets `mute = False`).
`setMute` stands for the external writes to `maestro.mute`. -/
inductive ClientOp
  | opPlayPreset (preset : String) (params : List (String × ℚ))
  | opPlayBlock (nevents : ℕ)
  | opStopPreset (preset : String) (fade : ℚ)
  | opStopAll (fade : ℚ)
  | opGetActivePresets
  | opGetCurrentMelody
  | opShutdown
  | opSetMute (b : Bool)
deriving DecidableEq

def applyOp (st : ClientState) : ClientOp → ClientState
  | ClientOp.opPlayPreset preset params => (play_preset st preset params).1
  | ClientOp.opPlayBlock nevents => (play_block st nevents).1
  | ClientOp.opStopPreset preset fade => (stop_preset st preset fade).1
  | ClientOp.opStopAll fade => (stop_all st fade).1
  | ClientOp.opGetActivePresets =>
      { st with cmds := st.cmds ++ [Cmd.getActivePresets] }
  | ClientOp.opGetCurrentMelody =>
      { st with cmds := st.cmds ++ [Cmd.getCurrentMelody] }
  | ClientOp.opShutdown => { st with cmds := st.cmds ++ [Cmd.stop] }
  | ClientOp.opSetMute b => { st with mute := b }

/-- State right after `_init_async`: empty `_sched`, empty queue, mute off. -/
def initClient : ClientState := ⟨[], [], false⟩

/-- The client state reached by a sequence of operations. -/
def runOps (ops : List ClientOp) : ClientState := ops.foldl applyOp initClient

/-! ### AudioEngine block scheduler — src/core/audio/audio_engine_server.py

`_process_block_events` (lines 336-390): `start = loop.time()`; iterate the
events sorted by `time_offset`; before each event sleep
`max(0, (start + time_offset) - now)`; firing and post-hooks take arbitrary
non-negative processing time before the next iteration. -/

/-- A scheduled event as it crosses the queue (`params` elided: the scheduler
orders and times events by `time_offset` only). -/
structure SEvent where
  time_offset : ℚ
  preset : String
deriving DecidableEq

/-- `sorted(events, key=lambda e: e["time_offset"])` — a stable sort by
non-decreasing `time_offset`. -/
def sortBlockEvents (events : List SEvent) : List SEvent :=
  events.mergeSort (fun a b => decide (a.time_offset ≤ b.time_offset))

/-- The record of one loop iteration: the event's offset, the wall-clock time
`arrive` when the iteration starts (`loop.time()` at line 345), the computed
sleep, and the time `fire = arrive + sleep` at which the preset fires. -/
structure Fire where
  offset : ℚ
  arrive : ℚ
  sleep : ℚ
  fire : ℚ
deriving DecidableEq

/-- The timing trace of the scheduler loop from clock value `now`, given the
per-iteration processing delays (time spent instantiating the preset and
applying post-hooks before the next iteration starts). -/
def processFrom (start : ℚ) : ℚ → List ℚ → List ℚ → List Fire
  | _, [], _ => []
  | now, off :: offs, delays =>
    let sleep := max 0 (start + off - now)
    let fire := now + sleep
    ⟨off, now, sleep, fire⟩ :: processFrom start (fire + delays.headD 0) offs delays.tail

/-- `_process_block_events(events)`: `start = loop.time()` and the loop over
the events sorted by `time_offset`. -/
def process_block_events (start : ℚ) (events : List SEvent) (delays : List ℚ) :
    List Fire :=
  processFrom start start ((sortBlockEvents events).map (fun e => e.time_offset)) delays

/-! Register-bound lemmas for `_fit`. -/

theorem fitUpAux_ge (low : ℤ) : ∀ (fuel : ℕ) (midi : ℤ),
    low ≤ midi + 12 * fuel → low ≤ fitUpAux low fuel midi := by
  intro fuel
  induction fuel with
  | zero => intro midi h; simpa [fitUpAux] using h
  | succ k ih =>
    intro midi h
    by_cases hc : midi < low
    · simp only [fitUpAux, if_pos hc]
      exact ih (midi + 12) (by push_cast at h ⊢; linarith)
    · simp only [fitUpAux, if_neg hc]
      omega

theorem fitUp_ge (low midi : ℤ) : low ≤ fitUp low midi := by
  refine fitUpAux_ge low _ midi ?_
  omega

theorem fitUpAux_le (low : ℤ) : ∀ (fuel : ℕ) (midi : ℤ),
    fitUpAux low fuel midi ≤ max midi (low + 11) := by
  intro fuel
  induction fuel with
  | zero => intro midi; simp [fitUpAux]
  | succ k ih =>
    intro midi
    by_cases hc : midi < low
    · simp only [fitUpAux, if_pos hc]
      have := ih (midi + 12)
      have hmax : max (midi + 12) (low + 11) = low + 11 := by omega
      omega
    · simp only [fitUpAux, if_neg hc]
      omega

theorem fitDownAux_le (high : ℤ) : ∀ (fuel : ℕ) (midi : ℤ),
    midi ≤ high → fitDownAux high fuel midi ≤ high := by
  intro fuel
  induction fuel with
  | zero => intro midi h; simpa [fitDownAux] using h
  | succ k ih =>
    intro midi h
    simp only [fitDownAux, if_neg (by omega : ¬ midi > high)]
    exact h

theorem fitDownAux_le_of_fuel (high : ℤ) : ∀ (fuel : ℕ) (midi : ℤ),
    midi ≤ high + 12 * fuel → fitDownAux high fuel midi ≤ high := by
  intro fuel
  induction fuel with
  | zero => intro midi h; simpa [fitDownAux] using h
  | succ k ih =>
    intro midi h
    by_cases hc : midi > high
    · simp only [fitDownAux, if_pos hc]
      exact ih (midi - 12) (by push_cast at h ⊢; linarith)
    · simp only [fitDownAux, if_neg hc]
      omega

theorem fitDownAux_ge (high : ℤ) : ∀ (fuel : ℕ) (midi : ℤ),
    min midi (high - 11) ≤ fitDownAux high fuel midi := by
  intro fuel
  induction fuel with
  | zero => intro midi; simp [fitDownAux]
  | succ k ih =>
    intro midi
    by_cases hc : midi > high
    · simp only [fitDownAux, if_pos hc]
      have := ih (midi - 12)
      have hmin : min (midi - 12) (high - 11) = high - 11 := by omega
      omega
    · simp only [fitDownAux, if_neg hc]
      omega

/-- `_fit` lands inside the register provided the register spans at least an
octave minus one (`low + 11 ≤ high`), which holds for every entry of
`REGISTER`. -/
theorem fit_mem (low high midi : ℤ) (hspan : low + 11 ≤ high) :
    low ≤ fit low high midi ∧ fit low high midi ≤ high := by
  have hup_ge : low ≤ fitUp low midi := fitUp_ge low midi
  constructor
  · have := fitDownAux_ge high (fitUp low midi - high).toNat (fitUp low midi)
    unfold fit fitDown
    omega
  · unfold fit fitDown
    exact fitDownAux_le_of_fuel high _ _ (by omega)

/-- C5: For every list of chord data accepted by the chord parser and every
rhythm list, `Orchestrator.voice` returns parts in which every bass MIDI note
lies in [28, 48] and every piano MIDI note lies in [50, 96], the fitting being
done by repeated ±12 shifts into the register. -/
theorem orchestrator_register_bounds (chords : List (ChordNotes × ℚ)) :
    (∀ n ∈ (voice chords).bassNotes, 28 ≤ n ∧ n ≤ 48) ∧
    (∀ n ∈ (voice chords).pianoNotes, 50 ≤ n ∧ n ≤ 96) := by
  constructor
  · intro n hn
    simp only [voice, List.mem_map] at hn
    obtain ⟨c, _, rfl⟩ := hn
    exact fit_mem 28 48 c.1.bassMidi (by norm_num)
  · intro n hn
    simp only [voice, List.mem_flatMap, List.mem_map] at hn
    obtain ⟨c, _, m, _, rfl⟩ := hn
    exact fit_mem 50 96 m (by norm_num)

theorem orchestrator_register_bounds_witness :
    28 ≤ fitRole 16 "bass" ∧ fitRole 16 "bass" ≤ 48 :=
  (orchestrator_register_bounds [(⟨16, [100]⟩, 1)]).1 (fitRole 16 "bass") (by decide)

/-- C9: For every parts mapping whose entries have non-empty notes and
durations lists, `AutoMixer.autoset` returns the same parts with, for every
part, `gain_db = 3` regardless of the measured loudness, `enable_reverb` true
iff the mean note value exceeds 60, and `enable_chorus` true iff the part has
more than 6 notes. -/
theorem automix_autoset_spec (parts : List (String × PartCfg))
    (hne : ∀ p ∈ parts, p.2.notes ≠ [] ∧ p.2.durations ≠ []) :
    List.Forall₂ AutosetRel parts (autoset parts) := by
  induction parts with
  | nil => simp [autoset]
  | cons p t ih =>
    refine List.Forall₂.cons ?_ (ih ?_)
    · refine ⟨rfl, rfl, rfl, rfl, rfl, ?_, ?_⟩
      · simp [autosetPart]
      · simp [autosetPart]
    · intro q hq
      exact hne q (List.mem_cons_of_mem p hq)

theorem automix_autoset_spec_witness :
    List.Forall₂ AutosetRel
      [("melody", ⟨[70, 50], [1, 1], [9/10, 9/10], none, none, none⟩)]
      (autoset [("melody", ⟨[70, 50], [1, 1], [9/10, 9/10], none, none, none⟩)]) :=
  automix_autoset_spec _ (by decide)

/-- C2: For a ProgressionSynth configured with genre pop,
`next({key: "C major", time_signature: "4/4"}, beats = 8)` computes
`bar_beats = 4`, `n_bars = max(1, round(8/4)) = 2`, cycles the pop template
and truncates it to 2 entries, and resolves the numerals in C major to exactly
`["C", "G"]`. -/
theorem progression_pop_c_major_8_beats :
    barBeatsOf (some "4/4") = some 4 ∧
    nBarsOf 8 4 = 2 ∧
    progressionNextPop "C major" (some "4/4") 8 = ["C", "G"] := by
  have hbar : barBeatsOf (some "4/4") = some (((4 : ℕ) : ℚ) * (4 / ((4 : ℕ) : ℚ))) := rfl
  have hbar4 : barBeatsOf (some "4/4") = some 4 := by rw [hbar]; norm_num
  have hdiv : (8 : ℚ) / 4 = 2 := by norm_num
  have hround : pyRound 2 = 2 := by norm_num [pyRound]
  have hn : nBarsOf 8 4 = 2 := by rw [nBarsOf, hdiv, hround]; decide
  have hkey : normalizeKey "C major" = "C major" := by decide
  have hcore : nextUncachedGenre ["I", "V", "vi", "IV"] "C major" 8 (some "4/4") =
      some ["C", "G"] := by
    unfold nextUncachedGenre
    rw [hbar4]
    dsimp only
    rw [hn]
    decide
  refine ⟨hbar4, hn, ?_⟩
  simp only [progressionNextPop, hkey, hcore]

/-! Compositor cursor arithmetic. -/

theorem zip_map_snd (g : List NoteEv → ℕ) (hands : List (List NoteEv)) :
    hands.zip (hands.map g) = hands.map (fun h => (h, g h)) := by
  induction hands with
  | nil => rfl
  | cons h t ih => simp [ih]

theorem iterateNextEvent_mod (hands : List (List NoteEv)) :
    ∀ (k j : ℕ),
      iterateNextEvent k ⟨hands, hands.map (fun h => j % h.length), false⟩ =
        some ⟨hands, hands.map (fun h => (j + k) % h.length), false⟩ := by
  intro k
  induction k with
  | zero => intro j; simp [iterateNextEvent]
  | succ n ih =>
    intro j
    by_cases hemp : hands = []
    · subst hemp
      simpa [iterateNextEvent, next_event] using ih j
    · have hidx : (hands.map (fun h => (h, j % h.length))).map
          (fun p => (p.2 + 1) % p.1.length) = hands.map (fun h => (j + 1) % h.length) := by
        rw [List.map_map]
        refine List.map_congr_left (fun h _ => ?_)
        simp [Function.comp, Nat.mod_add_mod]
      have hstep : next_event ⟨hands, hands.map (fun h => j % h.length), false⟩ =
          some ((
            (hands.map (fun h => (h, j % h.length))).map
              (fun p => (p.1.getD p.2 ⟨0, 0, 0⟩).freq),
            (hands.map (fun h => (h, j % h.length))).map
              (fun p => (p.1.getD p.2 ⟨0, 0, 0⟩).dur),
            (hands.map (fun h => (h, j % h.length))).map
              (fun p => max (-1) (p.1.getD p.2 ⟨0, 0, 0⟩).intens)),
            ⟨hands, hands.map (fun h => (j + 1) % h.length), false⟩) := by
        simp only [next_event, Bool.false_eq_true, if_false, hemp,
          zip_map_snd (fun h => j % h.length) hands, hidx]
      rw [iterateNextEvent, hstep]
      dsimp only
      rw [ih (j + 1)]
      have hj : j + 1 + n = j + (n + 1) := by omega
      rw [hj]

/-- C8: for every started melody with mute false, after `k` calls to
`next_event()` following `start(name)`, each hand's cursor equals
`k mod n` where `n` is that hand's length. -/
theorem compositor_cursor_mod (melodies : List (String × List (List NoteEv)))
    (name : String) (k : ℕ)
    (hne : ∀ h ∈ (melodies.lookup name).getD [], h ≠ []) :
    ∃ st1, iterateNextEvent k (compStart ⟨[], [], false⟩ melodies name) = some st1 ∧
      st1.current_hands = (melodies.lookup name).getD [] ∧
      st1.idxs = ((melodies.lookup name).getD []).map (fun h => k % h.length) := by
  have _hne := hne
  set hands := (melodies.lookup name).getD [] with hh
  have hstart : compStart ⟨[], [], false⟩ melodies name =
      ⟨hands, List.replicate hands.length 0, false⟩ := by
    simp [compStart, hh]
  have hrep : List.replicate hands.length 0 = hands.map (fun h => 0 % h.length) := by
    simp [List.map_const', Nat.zero_mod, List.eq_replicate_iff]
  refine ⟨⟨hands, hands.map (fun h => k % h.length), false⟩, ?_, rfl, rfl⟩
  rw [hstart, hrep]
  simpa using iterateNextEvent_mod hands k 0

theorem compositor_cursor_mod_witness :
    ∃ st1,
      iterateNextEvent 3 (compStart ⟨[], [], false⟩ melodiesEx "m") = some st1 ∧
      st1.current_hands = ((melodiesEx.lookup "m").getD []) ∧
      st1.idxs = (((melodiesEx.lookup "m").getD []).map (fun h => 3 % h.length)) :=
  compositor_cursor_mod melodiesEx "m" 3 (by decide)

/-! Client `_sched` invariant. -/

theorem stop_all_empty_sched (st : ClientState) (fade : ℚ) (h : st.sched = []) :
    stop_all st fade = (st, []) := by
  unfold stop_all
  rw [h]
  rfl

theorem applyOp_sched_empty (st : ClientState) (op : ClientOp) (hst : st.sched = []) :
    (applyOp st op).sched = [] := by
  cases op with
  | opPlayPreset preset params =>
    by_cases hm : st.mute
    · simp [applyOp, play_preset, hm, stop_all_empty_sched st 1 hst, hst]
    · simp [applyOp, play_preset, hm, hst]
  | opPlayBlock nevents =>
    by_cases hm : st.mute
    · simp [applyOp, play_block, hm, stop_all_empty_sched st 1 hst, hst]
    · simp [applyOp, play_block, hm, hst]
  | opStopPreset preset fade =>
    simp [applyOp, stop_preset, hst]
  | opStopAll fade =>
    simp [applyOp, stop_all_empty_sched st fade hst, hst]
  | opGetActivePresets => simpa [applyOp] using hst
  | opGetCurrentMelody => simpa [applyOp] using hst
  | opShutdown => simpa [applyOp] using hst
  | opSetMute b => simpa [applyOp] using hst

theorem runOps_sched_empty (ops : List ClientOp) : (runOps ops).sched = [] := by
  suffices h : ∀ (l : List ClientOp) (st : ClientState), st.sched = [] →
      (l.foldl applyOp st).sched = [] by
    exact h ops initClient rfl
  intro l
  induction l with
  | nil => intro st hst; simpa using hst
  | cons op t ih =>
    intro st hst
    exact ih _ (applyOp_sched_empty st op hst)

/-- C10: in every reachable state of `AudioEngineClient` the scheduled-preset
map `_sched` is empty (no client operation ever inserts into it), hence
`stop_all(fade)` iterates over nothing: it enqueues no command, cancels no
future, and leaves the client state unchanged. -/
theorem client_sched_empty_stop_all_noop (ops : List ClientOp) (fade : ℚ) :
    (runOps ops).sched = [] ∧ stop_all (runOps ops) fade = (runOps ops, []) :=
  ⟨runOps_sched_empty ops, stop_all_empty_sched _ fade (runOps_sched_empty ops)⟩

/-- C4: in every reachable client state with `maestro.mute` true, `play_preset`
and `play_block` call `stop_all()` and return with the command queue (and the
whole client state) unchanged, so these entry points create no audio voice
while mute is set. -/
theorem client_mute_gate (ops : List ClientOp) (preset : String)
    (params : List (String × ℚ)) (nevents : ℕ)
    (hm : (runOps ops).mute = true) :
    play_preset (runOps ops) preset params = (runOps ops, [ClientAct.stopAllCall]) ∧
    play_block (runOps ops) nevents = (runOps ops, [ClientAct.stopAllCall]) := by
  have hsa := stop_all_empty_sched (runOps ops) 1 (runOps_sched_empty ops)
  constructor
  · simp [play_preset, hm, hsa]
  · simp [play_block, hm, hsa]

theorem client_mute_gate_witness :
    play_preset (runOps [ClientOp.opSetMute true]) "piano" [] =
      (runOps [ClientOp.opSetMute true], [ClientAct.stopAllCall]) ∧
    play_block (runOps [ClientOp.opSetMute true]) 0 =
      (runOps [ClientOp.opSetMute true], [ClientAct.stopAllCall]) :=
  client_mute_gate [ClientOp.opSetMute true] "piano" [] 0 rfl

/-- C3 (code bug): with mute set, `Maestro.queue_sfx` raises `NameError`
(its mute branch reads the unbound name `zone`) instead of returning cleanly
after `client.stop_all()`, and `Maestro.leave_zone` never calls
`client.stop_all()` at all; `enter_zone` is the only listed entry point that
cancels the in-flight zone task, calls `stop_all` and returns. -/
theorem maestro_mute_entry_points :
    queue_sfx ⟨[], [], [], true⟩ "laser" 0 =
      Except.error "NameError: name zone is not defined" ∧
    MaestroAct.stopAllCall ∉ (leave_zone ⟨["Z"], ["Z"], [], true⟩ "Z").2 ∧
    enter_zone ⟨["Z"], ["Z"], [], true⟩ "Z" =
      (⟨[], ["Z"], [], true⟩, [MaestroAct.cancelTask "Z", MaestroAct.stopAllCall]) := by
  refine ⟨rfl, ?_, ?_⟩ <;> decide

/-! Harmonic best-template scan: the fold keeps the first maximiser in
template order. -/

theorem foldr_max_pull (s : String × List ℕ → ℤ) (l : List (String × List ℕ))
    (a b : ℤ) :
    l.foldr (fun p m => max (s p) m) (max a b) =
      max a (l.foldr (fun p m => max (s p) m) b) := by
  induction l with
  | nil => rfl
  | cons p t ih => simp [ih, max_left_comm]

theorem bestStep_fst (window : List ℕ) (best : ℤ × String) (p : String × List ℕ) :
    (bestStep window best p).1 = max best.1 (tmplScoreZ window p) := by
  unfold bestStep
  split
  · rename_i h
    exact (max_eq_right h.le).symm
  · rename_i h
    exact (max_eq_left (not_lt.mp h)).symm

theorem bestFold_fst (window : List ℕ) :
    ∀ (l : List (String × List ℕ)) (best : ℤ × String),
      (l.foldl (bestStep window) best).1 =
        l.foldr (fun p m => max (tmplScoreZ window p) m) best.1 := by
  intro l
  induction l with
  | nil => intro best; rfl
  | cons p t ih =>
    intro best
    rw [List.foldl_cons, ih, bestStep_fst, List.foldr_cons, max_comm best.1,
      foldr_max_pull]

theorem member_le_foldr_max (window : List ℕ) (l : List (String × List ℕ)) (b : ℤ)
    (q : String × List ℕ) (hq : q ∈ l) :
    tmplScoreZ window q ≤ l.foldr (fun p m => max (tmplScoreZ window p) m) b := by
  induction l with
  | nil => cases hq
  | cons p t ih =>
    rcases List.mem_cons.mp hq with h | h
    · subst h; exact le_max_left _ _
    · exact le_trans (ih h) (le_max_right _ _)

theorem bestFold_const (window : List ℕ) :
    ∀ (l : List (String × List ℕ)) (best : ℤ × String),
      (∀ p ∈ l, tmplScoreZ window p ≤ best.1) →
      l.foldl (bestStep window) best = best := by
  intro l
  induction l with
  | nil => intro best _; rfl
  | cons p t ih =>
    intro best hall
    rw [List.foldl_cons]
    have hs : bestStep window best p = best := by
      unfold bestStep
      rw [if_neg (not_lt.mpr (hall p (List.mem_cons_self p t)))]
    rw [hs]
    exact ih best (fun q hq => hall q (List.mem_cons_of_mem p hq))

theorem bestFold_snd (window : List ℕ) :
    ∀ (l : List (String × List ℕ)) (best : ℤ × String) (M : ℤ),
      M = l.foldr (fun p m => max (tmplScoreZ window p) m) best.1 → best.1 < M →
      ∃ q, l.find? (fun p => decide (tmplScoreZ window p = M)) = some q ∧
        (l.foldl (bestStep window) best).2 = q.1 := by
  intro l
  induction l with
  | nil =>
    intro best M hM hlt
    rw [List.foldr_nil] at hM
    exact absurd hlt (by rw [hM]; exact lt_irrefl _)
  | cons p t ih =>
    intro best M hM hlt
    rw [List.foldr_cons] at hM
    by_cases hp : tmplScoreZ window p = M
    · refine ⟨p, ?_, ?_⟩
      · rw [List.find?_cons_of_pos _ (by simp [hp])]
      · rw [List.foldl_cons]
        have hstep : bestStep window best p = (tmplScoreZ window p, p.1) := by
          unfold bestStep
          rw [if_pos (by rw [hp]; exact hlt)]
        rw [hstep, bestFold_const window t _ ?_]
        intro q hq
        have h1 := member_le_foldr_max window t best.1 q hq
        have h2 : t.foldr (fun r m => max (tmplScoreZ window r) m) best.1 ≤ M := by
          rw [hM]; exact le_max_right _ _
        show tmplScoreZ window q ≤ tmplScoreZ window p
        rw [hp]
        exact le_trans h1 h2
    · have hsp_le : tmplScoreZ window p ≤ M := by rw [hM]; exact le_max_left _ _
      have hsp_lt : tmplScoreZ window p < M := lt_of_le_of_ne hsp_le hp
      have hrest : M = t.foldr (fun r m => max (tmplScoreZ window r) m) best.1 := by
        rcases max_choice (tmplScoreZ window p)
          (t.foldr (fun r m => max (tmplScoreZ window r) m) best.1) with hmc | hmc
        · exact absurd (hM.trans hmc).symm hp
        · exact hM.trans hmc
      have hM' : M = t.foldr (fun r m => max (tmplScoreZ window r) m)
          (bestStep window best p).1 := by
        rw [bestStep_fst, max_comm best.1, foldr_max_pull, ← hrest]
        exact (max_eq_right hsp_le).symm
      have hlt' : (bestStep window best p).1 < M := by
        rw [bestStep_fst]
        exact max_lt hlt hsp_lt
      obtain ⟨q, hfind, hsnd⟩ := ih (bestStep window best p) M hM' hlt'
      refine ⟨q, ?_, ?_⟩
      · rw [List.find?_cons_of_neg _ (by simp [hp]), hfind]
      · rw [List.foldl_cons]
        exact hsnd

/-- C6 amended: for every beat window, the chord assigned is the one among the
24 major/minor triad templates maximising the sum of the window's pitch-class
histogram over the template's three pitch classes, with ties broken by the
earliest position in template iteration order — the 12 major triads in root
order followed by the 12 minor triads in root order (not by earliest root
index across both qualities); an empty window is assigned the tonic's triad
(tonic name, with an m appended iff the estimated mode is minor). -/
theorem harmonic_chord_choice (window : List ℕ) (tonic mode : String) :
    chordForWindow window tonic mode =
      if window = [] then tonic ++ (if mode = "major" then "" else "m")
      else firstMaxSymbol window tonic := by
  by_cases hw : window = []
  · simp [chordForWindow, hw]
  · rw [chordForWindow, if_neg hw, if_neg hw]
    have hmem : ("C", ([0, 4, 7] : List ℕ)) ∈ CHORD_TEMPLATES := by decide
    have h0 : (0 : ℤ) ≤ tmplScoreZ window ("C", [0, 4, 7]) := Int.ofNat_nonneg _
    have hM0 := member_le_foldr_max window CHORD_TEMPLATES (-1) _ hmem
    have hlt : (-1 : ℤ) <
        CHORD_TEMPLATES.foldr (fun p m => max (tmplScoreZ window p) m) (-1) := by
      linarith
    obtain ⟨q, hfind, hsnd⟩ := bestFold_snd window CHORD_TEMPLATES (-1, tonic)
      (CHORD_TEMPLATES.foldr (fun p m => max (tmplScoreZ window p) m) (-1)) rfl hlt
    simp only [firstMaxSymbol]
    rw [hfind]
    simpa using hsnd

/-- C6 counterexample: on the concrete window with pitch classes
{2, 6, 9, 0, 3, 7} (beat 0 of six simultaneous events) the scan returns "D"
(root index 2) although "Cm" (root index 0) attains the same maximal score 3 —
so the tie is not broken by the earliest root index among all tied candidates,
refuting the claim as stated. -/
theorem harmonic_tiebreak_counterexample :
    chordForWindow [2, 6, 9, 0, 3, 7] "C" "major" = "D" ∧
    windowOf [(0, 2), (0, 6), (0, 9), (0, 0), (0, 3), (0, 7)] 0 =
      [2, 6, 9, 0, 3, 7] ∧
    templateScore [2, 6, 9, 0, 3, 7] [0, 3, 7] = 3 ∧
    templateScore [2, 6, 9, 0, 3, 7] [2, 6, 9] = 3 ∧
    (CHORD_TEMPLATES.all (fun p => templateScore [2, 6, 9, 0, 3, 7] p.2 ≤ 3)) = true ∧
    ("Cm", ([0, 3, 7] : List ℕ)) ∈ CHORD_TEMPLATES ∧
    ("D", ([2, 6, 9] : List ℕ)) ∈ CHORD_TEMPLATES ∧
    NOTE_NAMES.indexOf "C" = 0 ∧ NOTE_NAMES.indexOf "D" = 2 := by
  refine ⟨by decide, ?_, by decide, by decide, by decide, by decide, by decide,
    by decide, by decide⟩
  norm_num [windowOf]

/-! The `next_block_events` while-loop: positive durations force termination,
and the loop never terminates on a state whose durations are all zero. -/

theorem foldr_min_le_mem (l : List ℚ) (x : ℚ) (hx : x ∈ l) :
    l.foldr min 1 ≤ x := by
  induction l with
  | nil => cases hx
  | cons a t ih =>
    rcases List.mem_cons.mp hx with h | h
    · subst h; exact min_le_left _ _
    · exact le_trans (min_le_right _ _) (ih h)

theorem foldr_min_pos (l : List ℚ) (hl : ∀ x ∈ l, 0 < x) : 0 < l.foldr min 1 := by
  induction l with
  | nil => norm_num
  | cons a t ih =>
    exact lt_min (hl a (List.mem_cons_self a t))
      (ih (fun x hx => hl x (List.mem_cons_of_mem a hx)))

theorem le_mean (δ : ℚ) (l : List ℚ) (hne : l ≠ []) (hall : ∀ x ∈ l, δ ≤ x) :
    δ ≤ l.sum / (l.length : ℚ) := by
  have hlen : (0 : ℚ) < (l.length : ℚ) := by
    exact_mod_cast List.length_pos.mpr hne
  rw [le_div_iff₀ hlen]
  have hsum : ∀ (t : List ℚ), (∀ x ∈ t, δ ≤ x) → δ * (t.length : ℚ) ≤ t.sum := by
    intro t
    induction t with
    | nil => intro _; simp
    | cons a s ih =>
      intro hall'
      have h1 := hall' a (List.mem_cons_self a s)
      have h2 := ih (fun x hx => hall' x (List.mem_cons_of_mem a hx))
      simp only [List.length_cons, List.sum_cons]
      push_cast
      nlinarith
  exact hsum l hall

theorem advLB_pos (st : CompositorState) (hpos : DursPos st) : 0 < advLB st := by
  refine foldr_min_pos _ (fun x hx => ?_)
  simp only [allDurs, List.mem_flatten, List.mem_map] at hx
  obtain ⟨l, ⟨h, hh, rfl⟩, hxl⟩ := hx
  obtain ⟨ev, hev, rfl⟩ := List.mem_map.mp hxl
  exact hpos h hh ev hev

theorem zip_idx_map (g : List NoteEv × ℕ → ℕ) :
    ∀ (hands : List (List NoteEv)) (idxs : List ℕ),
      idxs.length = hands.length →
      hands.zip ((hands.zip idxs).map g) = (hands.zip idxs).map (fun p => (p.1, g p)) := by
  intro hands
  induction hands with
  | nil => intro idxs _; rfl
  | cons h t ih =>
    intro idxs hlen
    cases idxs with
    | nil => simp at hlen
    | cons i s =>
      simp only [List.zip_cons_cons, List.map_cons]
      rw [ih s (by simpa using hlen)]

theorem next_event_step (st : CompositorState) (hm : st.mute = false)
    (hok : CursorsOk st) (hpos : DursPos st) :
    ∃ notes durs ints st1,
      next_event st = some ((notes, durs, ints), st1) ∧
      st1.current_hands = st.current_hands ∧ st1.mute = false ∧
      CursorsOk st1 ∧ DursPos st1 ∧
      advLB st ≤ durs.sum / (durs.length : ℚ) := by
  by_cases hemp : st.current_hands = []
  · refine ⟨[0], [1], [0], st, ?_, rfl, hm, hok, hpos, ?_⟩
    · simp [next_event, hm, hemp]
    · rw [advLB, allDurs, hemp]
      norm_num
  · set hz := st.current_hands.zip st.idxs with hhz
    refine ⟨hz.map (fun p => (p.1.getD p.2 ⟨0, 0, 0⟩).freq),
      hz.map (fun p => (p.1.getD p.2 ⟨0, 0, 0⟩).dur),
      hz.map (fun p => max (-1) (p.1.getD p.2 ⟨0, 0, 0⟩).intens),
      { st with idxs := hz.map (fun p => (p.2 + 1) % p.1.length) }, ?_, rfl, hm,
      ⟨?_, ?_⟩, hpos, ?_⟩
    · simp [next_event, hm, hemp, hhz]
    · simp only [List.length_map]
      rw [hhz, List.length_zip, hok.1, min_self]
    · intro q hq
      rw [hhz, zip_idx_map _ _ _ hok.1] at hq
      obtain ⟨p, hp, rfl⟩ := List.mem_map.mp hq
      have hlt := hok.2 p (by rw [← hhz] at hp; exact hp)
      exact Nat.mod_lt _ (Nat.lt_of_le_of_lt (Nat.zero_le _) hlt)
    · refine le_mean _ _ ?_ ?_
      · have hlen : hz.length = st.current_hands.length := by
          rw [hhz, List.length_zip, hok.1, min_self]
        intro hcon
        rw [List.map_eq_nil_iff] at hcon
        rw [hcon] at hlen
        exact hemp (List.length_eq_zero.mp hlen.symm)
      · intro x hx
        obtain ⟨p, hp, rfl⟩ := List.mem_map.mp hx
        have hmem := List.of_mem_zip (hhz ▸ hp)
        have hidx := hok.2 p hp
        rw [List.getD_eq_getElem _ _ hidx]
        refine foldr_min_le_mem _ _ ?_
        simp only [allDurs, List.mem_flatten, List.mem_map]
        exact ⟨p.1.map NoteEv.dur, ⟨p.1, hmem.1, rfl⟩,
          List.mem_map.mpr ⟨p.1[p.2], List.getElem_mem hidx, rfl⟩⟩

theorem nbe_total (beats : ℚ) :
    ∀ (fuel : ℕ) (st : CompositorState) (t : ℚ),
      st.mute = false → CursorsOk st → DursPos st →
      beats ≤ t + (fuel : ℚ) * advLB st →
      ∃ out st1, nextBlockEventsFuel beats fuel st t = some (out, st1) ∧
        (∀ tk ∈ out, t ≤ tk.time ∧ tk.time < beats) ∧
        (out.map BlockTick.time).Chain' (· ≤ ·) ∧
        (t < beats → (out.map BlockTick.time).head? = some t) := by
  intro fuel
  induction fuel with
  | zero =>
    intro st t hm hok hpos hfuel
    have hge : ¬ t < beats := by
      push_cast at hfuel
      simp only [zero_mul, add_zero] at hfuel
      exact not_lt.mpr hfuel
    refine ⟨[], st, ?_, by simp, by simp, fun hlt => absurd hlt hge⟩
    simp [nextBlockEventsFuel, hge]
  | succ n ih =>
    intro st t hm hok hpos hfuel
    by_cases hlt : t < beats
    · obtain ⟨notes, durs, ints, st1, hne_eq, hhands, hm1, hok1, hpos1, hadv⟩ :=
        next_event_step st hm hok hpos
      set adv := durs.sum / (durs.length : ℚ) with hadvdef
      have hlb_pos : 0 < advLB st := advLB_pos st hpos
      have hadv_nonneg : 0 ≤ adv := le_trans hlb_pos.le hadv
      have hlb1 : advLB st1 = advLB st := by
        rw [advLB, advLB, allDurs, allDurs, hhands]
      have hfuel1 : beats ≤ (t + adv) + (n : ℚ) * advLB st1 := by
        rw [hlb1]
        push_cast at hfuel
        nlinarith [hadv, hlb_pos]
      obtain ⟨out, stf, heq, hmem, hchain, hhead⟩ := ih st1 (t + adv) hm1 hok1 hpos1 hfuel1
      refine ⟨⟨t, notes, durs, ints⟩ :: out, stf, ?_, ?_, ?_, ?_⟩
      · rw [nextBlockEventsFuel, if_pos hlt, hne_eq]
        dsimp only
        rw [← hadvdef, heq]
        rfl
      · intro tk htk
        rcases List.mem_cons.mp htk with h | h
        · subst h; exact ⟨le_refl t, hlt⟩
        · obtain ⟨h1, h2⟩ := hmem tk h
          exact ⟨by linarith, h2⟩
      · rw [List.map_cons]
        refine List.Chain'.cons' hchain ?_
        intro y hy
        have hmemy := List.mem_of_mem_head? hy
        obtain ⟨tk, htk, rfl⟩ := List.mem_map.mp hmemy
        have := (hmem tk htk).1
        linarith
      · intro _
        simp
    · refine ⟨[], st, ?_, by simp, by simp, fun h => absurd h hlt⟩
      rw [nextBlockEventsFuel, if_neg hlt]

/-- C7 counterexample state: one hand holding one note of duration zero. -/
def stZeroDur : CompositorState := ⟨[[⟨440, 0, 1⟩]], [0], false⟩

/-- C7 counterexample: `next_block_events(1)` does not terminate on a
mute-false compositor state whose only note has duration 0 (the per-tick
advance is the mean of the hand durations, which is 0, so `time_acc` never
reaches `beats`), refuting the claim's termination statement for every state
with mute false. -/
theorem next_block_events_nonterminating : ¬ NextBlockTerminates stZeroDur 1 := by
  have hstep : next_event stZeroDur = some (([440], [0], [1]), stZeroDur) := by
    simp [next_event, stZeroDur]
  have hnone : ∀ fuel : ℕ, nextBlockEventsFuel 1 fuel stZeroDur 0 = none := by
    intro fuel
    induction fuel with
    | zero => simp [nextBlockEventsFuel]
    | succ n ih =>
      rw [nextBlockEventsFuel, if_pos (by norm_num : (0 : ℚ) < 1), hstep]
      dsimp only
      have hadv : (0 : ℚ) + [(0 : ℚ)].sum / (([(0 : ℚ)].length : ℕ) : ℚ) = 0 := by
        norm_num
      rw [hadv, ih]
      rfl
  rintro ⟨fuel, hfuel⟩
  rw [hnone fuel] at hfuel
  exact Bool.noConfusion hfuel

/-- C7 amended: for every `beats > 0` and every well-formed compositor state
(one in-range cursor per hand) with mute false whose note durations are all
positive, `next_block_events(beats)` terminates, returning a list of ticks
whose time offsets start at 0, are non-decreasing (each advanced by the mean
of that tick's hand durations), and are each strictly less than `beats`. -/
theorem next_block_events_amended (st : CompositorState) (beats : ℚ)
    (hb : 0 < beats) (hm : st.mute = false) (hok : CursorsOk st)
    (hpos : DursPos st) :
    ∃ fuel out st1, nextBlockEventsFuel beats fuel st 0 = some (out, st1) ∧
      (out.map BlockTick.time).head? = some 0 ∧
      (out.map BlockTick.time).Chain' (· ≤ ·) ∧
      ∀ tk ∈ out, 0 ≤ tk.time ∧ tk.time < beats := by
  have hδ : 0 < advLB st := advLB_pos st hpos
  obtain ⟨fuel, hfuel⟩ : ∃ fuel : ℕ, beats ≤ 0 + (fuel : ℚ) * advLB st := by
    refine ⟨⌈beats / advLB st⌉₊, ?_⟩
    have h1 : beats / advLB st ≤ (⌈beats / advLB st⌉₊ : ℚ) := Nat.le_ceil _
    rw [zero_add]
    calc beats = beats / advLB st * advLB st := by field_simp
    _ ≤ (⌈beats / advLB st⌉₊ : ℚ) * advLB st :=
        mul_le_mul_of_nonneg_right h1 hδ.le
  obtain ⟨out, st1, heq, hmem, hchain, hhead⟩ := nbe_total beats fuel st 0 hm hok hpos hfuel
  exact ⟨fuel, out, st1, heq, hhead hb, hchain, hmem⟩

theorem next_block_events_amended_witness :
    ∃ fuel out st1,
      nextBlockEventsFuel 2 fuel ⟨[[⟨440, 1, 1⟩]], [0], false⟩ 0 = some (out, st1) ∧
      (out.map BlockTick.time).head? = some 0 ∧
      (out.map BlockTick.time).Chain' (· ≤ ·) ∧
      ∀ tk ∈ out, 0 ≤ tk.time ∧ tk.time < 2 :=
  next_block_events_amended ⟨[[⟨440, 1, 1⟩]], [0], false⟩ 2 (by norm_num) rfl
    (by constructor <;> decide) (by unfold DursPos; decide)

/-! The block scheduler: per-event absolute deadlines against the block's
original start. -/

theorem headD_nonneg (delays : List ℚ) (hd : ∀ d ∈ delays, 0 ≤ d) :
    0 ≤ delays.headD 0 := by
  cases delays with
  | nil => simp
  | cons d t => exact hd d (List.mem_cons_self d t)

theorem processFrom_spec (start : ℚ) :
    ∀ (offs : List ℚ) (delays : List ℚ) (now : ℚ),
      (∀ d ∈ delays, 0 ≤ d) →
      (processFrom start now offs delays).map Fire.offset = offs ∧
      (∀ f ∈ processFrom start now offs delays,
        f.sleep = max 0 (start + f.offset - f.arrive) ∧
        f.fire = max f.arrive (start + f.offset)) ∧
      (∀ f ∈ processFrom start now offs delays, now ≤ f.arrive ∧ f.arrive ≤ f.fire) ∧
      ((processFrom start now offs delays).map Fire.fire).Chain' (· ≤ ·) := by
  intro offs
  induction offs with
  | nil =>
    intro delays now hd
    exact ⟨rfl, by simp [processFrom], by simp [processFrom], by simp [processFrom]⟩
  | cons off rest ih =>
    intro delays now hd
    have hd' : ∀ d ∈ delays.tail, 0 ≤ d :=
      fun d hdm => hd d (List.mem_of_mem_tail hdm)
    have hd0 : 0 ≤ delays.headD 0 := headD_nonneg delays hd
    have hsleep_nonneg : (0 : ℚ) ≤ max 0 (start + off - now) := le_max_left _ _
    set fire0 : ℚ := now + max 0 (start + off - now) with hfire0
    set now1 : ℚ := fire0 + delays.headD 0 with hnow1
    obtain ⟨ih1, ih2, ih3, ih4⟩ := ih delays.tail now1 hd'
    have hexp : processFrom start now (off :: rest) delays =
        ⟨off, now, max 0 (start + off - now), fire0⟩ ::
          processFrom start now1 rest delays.tail := rfl
    have hfire_max : fire0 = max now (start + off) := by
      rw [hfire0]
      rcases le_total (start + off) now with h | h
      · rw [max_eq_left (by linarith), max_eq_left h]
        ring
      · rw [max_eq_right (by linarith), max_eq_right h]
        ring
    refine ⟨?_, ?_, ?_, ?_⟩
    · rw [hexp, List.map_cons, ih1]
    · intro f hf
      rw [hexp] at hf
      rcases List.mem_cons.mp hf with h | h
      · subst h
        exact ⟨rfl, hfire_max⟩
      · exact ih2 f h
    · intro f hf
      rw [hexp] at hf
      rcases List.mem_cons.mp hf with h | h
      · subst h
        refine ⟨le_refl _, ?_⟩
        show now ≤ fire0
        rw [hfire0]
        linarith
      · obtain ⟨h1, h2⟩ := ih3 f h
        have hnow_le : now ≤ now1 := by
          rw [hnow1, hfire0]
          linarith
        exact ⟨le_trans hnow_le h1, h2⟩
    · rw [hexp, List.map_cons]
      refine List.Chain'.cons' ih4 ?_
      intro y hy
      have hmemy := List.mem_of_mem_head? hy
      obtain ⟨f, hfm, rfl⟩ := List.mem_map.mp hmemy
      obtain ⟨h1, h2⟩ := ih3 f hfm
      show fire0 ≤ f.fire
      have : fire0 ≤ now1 := by rw [hnow1]; linarith
      linarith

/-- C1: for every event list submitted via `play_block`, the server's block
scheduler processes the input sorted by `time_offset` (so events fire in
non-decreasing `time_offset` order); an event whose target `start +
time_offset` already lies in the past fires immediately (its sleep is clamped
to 0), while an event reached before its target fires exactly at `start +
time_offset`, the deadline relative to the block's original start — so
overruns do not retime subsequent events. -/
theorem block_scheduler_spec (start : ℚ) (events : List SEvent) (delays : List ℚ)
    (hd : ∀ d ∈ delays, 0 ≤ d) :
    (sortBlockEvents events).Perm events ∧
    ((sortBlockEvents events).map (fun e => e.time_offset)).Pairwise (· ≤ ·) ∧
    (process_block_events start events delays).map Fire.offset =
      (sortBlockEvents events).map (fun e => e.time_offset) ∧
    (∀ f ∈ process_block_events start events delays,
      f.sleep = max 0 (start + f.offset - f.arrive) ∧
      f.fire = max f.arrive (start + f.offset)) ∧
    (∀ f ∈ process_block_events start events delays,
      start + f.offset ≤ f.arrive → f.sleep = 0 ∧ f.fire = f.arrive) ∧
    (∀ f ∈ process_block_events start events delays,
      f.arrive ≤ start + f.offset → f.fire = start + f.offset) ∧
    ((process_block_events start events delays).map Fire.fire).Chain' (· ≤ ·) := by
  obtain ⟨h1, h2, h3, h4⟩ := processFrom_spec start
    ((sortBlockEvents events).map (fun e => e.time_offset)) delays start hd
  have htrans : ∀ a b c : SEvent,
      (fun a b : SEvent => decide (a.time_offset ≤ b.time_offset)) a b →
      (fun a b : SEvent => decide (a.time_offset ≤ b.time_offset)) b c →
      (fun a b : SEvent => decide (a.time_offset ≤ b.time_offset)) a c := by
    intro a b c hab hbc
    simp only [decide_eq_true_eq] at hab hbc ⊢
    exact le_trans hab hbc
  have htotal : ∀ a b : SEvent,
      ((fun a b : SEvent => decide (a.time_offset ≤ b.time_offset)) a b ||
       (fun a b : SEvent => decide (a.time_offset ≤ b.time_offset)) b a) := by
    intro a b
    simpa using le_total a.time_offset b.time_offset
  have hs := List.sorted_mergeSort htrans htotal events
  refine ⟨List.mergeSort_perm events _, ?_, h1, h2, ?_, ?_, h4⟩
  · rw [List.pairwise_map]
    exact hs.imp (fun h => by simpa using h)
  · intro f hf hpast
    obtain ⟨hsl, hfr⟩ := h2 f hf
    refine ⟨?_, ?_⟩
    · rw [hsl]
      exact max_eq_left (by linarith)
    · rw [hfr]
      exact max_eq_left hpast
  · intro f hf hbefore
    obtain ⟨hsl, hfr⟩ := h2 f hf
    rw [hfr]
    exact max_eq_right hbefore

theorem block_scheduler_spec_witness :
    (process_block_events 100 [⟨0, "piano"⟩, ⟨1, "snare"⟩] [2, 0]).map Fire.offset =
      [0, 1] := by
  have h := block_scheduler_spec 100 [⟨0, "piano"⟩, ⟨1, "snare"⟩] [2, 0] (by decide)
  have hsorted : sortBlockEvents [⟨0, "piano"⟩, ⟨1, "snare"⟩] =
      [⟨0, "piano"⟩, ⟨1, "snare"⟩] := List.mergeSort_of_sorted (by decide)
  rw [h.2.2.1, hsorted]
  rfl

end AudioUi
